import Mathlib

/-!
# V-ROLAI scheduling core — verification of the interval algebra,
# dynamic constraint kinds, metric functions and schedule container.

Shallow embedding of the Rust sources (`src/solution_space/interval.rs`,
`src/algorithms/est/metrics.rs`, `src/constraints/hard/dynamic/kinds.rs`,
`src/constraints/operations/assertions.rs`, `src/schedule/errors.rs`).
The axis scalar `Quantity<U>` wraps an `f64`; we embed its value as `ℚ`
(exact ordered-field arithmetic; the claims under study are order-algebraic
and all concrete witnesses stay in the dyadic range where `f64` is exact).
The `Interval::new` assertion `start <= end` is a type invariant of the Rust
type; here `Interval` is a plain structure and the invariant appears as an
explicit hypothesis (`WF`) where a theorem depends on it.
-/

namespace VRolai

/-- Embeds `Interval<U>` (`src/solution_space/interval.rs`): half-open range
`[start, end)`; field `end` is rendered `end_` (Lean keyword). -/
structure Interval where
  start : ℚ
  end_ : ℚ
  deriving DecidableEq, Repr

/-- The `Interval::new` invariant `start <= end` (enforced in Rust by an
assertion that aborts on violation). -/
def Interval.WF (i : Interval) : Prop := i.start ≤ i.end_

instance (i : Interval) : Decidable i.WF :=
  inferInstanceAs (Decidable (i.start ≤ i.end_))

/-- `Interval::new`: panics (modelled as `none`) when `start > end`. -/
def Interval.new (s e : ℚ) : Option Interval :=
  if s ≤ e then some ⟨s, e⟩ else none

/-- `Interval::duration`: `end - start`. -/
def Interval.duration (i : Interval) : ℚ := i.end_ - i.start

/-- `Interval::contains`: `start <= position && position < end`. -/
def Interval.contains (i : Interval) (position : ℚ) : Prop :=
  i.start ≤ position ∧ position < i.end_

/-- `Interval::overlaps`:
`self.start < other.end && other.start < self.end`. -/
def Interval.overlaps (a other : Interval) : Prop :=
  a.start < other.end_ ∧ other.start < a.end_

instance (a b : Interval) : Decidable (a.overlaps b) :=
  inferInstanceAs (Decidable (a.start < b.end_ ∧ b.start < a.end_))

/-- `Interval::intersection`: on overlap, the interval built from the larger
start (`if self.start > other.start { self.start } else { other.start }`)
and the smaller end (`if self.end < other.end { self.end } else
{ other.end }`); the Rust code constructs it through `Interval::new`, whose
assertion cannot fire there — see `Interval.overlaps_max_le_min`.
Otherwise `None`. -/
def Interval.intersection (a other : Interval) : Option Interval :=
  if a.overlaps other then
    some ⟨if other.start < a.start then a.start else other.start,
          if a.end_ < other.end_ then a.end_ else other.end_⟩
  else
    none

/-- `Interval::can_fit`:
`contains(start_position) && start_position + size <= end`. -/
def Interval.can_fit (i : Interval) (start_position size : ℚ) : Prop :=
  i.contains start_position ∧ start_position + size ≤ i.end_

/-- For well-formed overlapping intervals the bounds handed to
`Interval::new` inside `intersection` satisfy its assertion. -/
theorem Interval.overlaps_max_le_min (a b : Interval) (ha : a.WF) (hb : b.WF)
    (h : a.overlaps b) :
    max a.start b.start ≤ min a.end_ b.end_ := by
  obtain ⟨h1, h2⟩ := h
  simp only [max_le_iff, le_min_iff]
  exact ⟨⟨ha, h2.le⟩, ⟨h1.le, hb⟩⟩

/-- `is_canonical` (`src/constraints/operations/assertions.rs`): every
adjacent pair in order satisfies `!curr.overlaps(prev) && prev.end() <=
curr.start()` (checked over `windows(2)`, hence `List.Chain'`). -/
def is_canonical (intervals : List Interval) : Prop :=
  List.Chain' (fun prev curr => ¬ curr.overlaps prev ∧ prev.end_ ≤ curr.start)
    intervals

instance (l : List Interval) : Decidable (is_canonical l) :=
  inferInstanceAs (Decidable (List.Chain' _ l))

/-- Task ids (`crate::Id`) are strings. -/
abbrev Id := String

/-- Modelled from the spec: `SolutionSpace` (its implementation file is not
in the shown sources; §3 of the design: "mapping task-id → IntervalSet ...
absence of a task-id means no precomputed window data"). An `IntervalSet`
is its ordered sequence of intervals. -/
abbrev SolutionSpace := List (Id × List Interval)

/-- Modelled from the spec: `SolutionSpace::get_intervals` — "Lookup returns
the stored IntervalSet or an absence marker if the task-id was never
registered" (§4.3). -/
def SolutionSpace.get_intervals (ss : SolutionSpace) (task_id : Id) :
    Option (List Interval) :=
  List.lookup task_id ss

/-- The `Task` capability as consumed by the metric functions: only
`size_on_axis` (the task's duration in axis units) is read. -/
structure Task where
  size_on_axis : ℚ

/-- Loop body of `compute_est` (`src/algorithms/est/metrics.rs:46-64`),
as structural recursion over the window list: `continue` for windows ending
at or before the horizon start, `break` (answer `none`) for windows starting
at or after the horizon end, otherwise intersect with the horizon and answer
the intersection's start when the task fits. -/
def estScan (task_size : ℚ) (horizon : Interval) : List Interval → Option ℚ
  | [] => none
  | w :: ws =>
    if w.end_ ≤ horizon.start then estScan task_size horizon ws
    else if horizon.end_ ≤ w.start then none
    else
      match w.intersection horizon with
      | some inter =>
          if task_size ≤ inter.duration then some inter.start
          else estScan task_size horizon ws
      | none => estScan task_size horizon ws

/-- `compute_est` (`src/algorithms/est/metrics.rs:33-67`). -/
def compute_est (task : Task) (task_id : Id) (solution_space : SolutionSpace)
    (horizon : Interval) : Option ℚ :=
  (solution_space.get_intervals task_id).bind
    (estScan task.size_on_axis horizon)

/-- Loop body of `compute_deadline` (`src/algorithms/est/metrics.rs:100-118`);
the Rust loop runs over `intervals.iter().rev()`, so this scan receives the
reversed window list: `continue` for windows starting at or after the horizon
end, `break` for windows ending at or before the horizon start, otherwise
answer `intersection.end - task_size` when the task fits. -/
def deadlineScan (task_size : ℚ) (horizon : Interval) :
    List Interval → Option ℚ
  | [] => none
  | w :: ws =>
    if horizon.end_ ≤ w.start then deadlineScan task_size horizon ws
    else if w.end_ ≤ horizon.start then none
    else
      match w.intersection horizon with
      | some inter =>
          if task_size ≤ inter.duration then some (inter.end_ - task_size)
          else deadlineScan task_size horizon ws
      | none => deadlineScan task_size horizon ws

/-- `compute_deadline` (`src/algorithms/est/metrics.rs:86-121`). -/
def compute_deadline (task : Task) (task_id : Id)
    (solution_space : SolutionSpace) (horizon : Interval) : Option ℚ :=
  (solution_space.get_intervals task_id).bind
    (fun intervals => deadlineScan task.size_on_axis horizon intervals.reverse)

/-- Loop body of `compute_flexibility`
(`src/algorithms/est/metrics.rs:163-184`): same skip/stop structure as
`estScan`; a window whose horizon intersection fits the task adds
`intersection.duration / task_size` to the accumulator. -/
def flexScan (task_size : ℚ) (horizon : Interval) : List Interval → ℚ
  | [] => 0
  | w :: ws =>
    if w.end_ ≤ horizon.start then flexScan task_size horizon ws
    else if horizon.end_ ≤ w.start then 0
    else
      match w.intersection horizon with
      | some inter =>
          (if task_size ≤ inter.duration then inter.duration / task_size
           else 0) + flexScan task_size horizon ws
      | none => flexScan task_size horizon ws

/-- `compute_flexibility` (`src/algorithms/est/metrics.rs:144-187`): `0` when
the task has no solution-space entry. -/
def compute_flexibility (task : Task) (task_id : Id)
    (solution_space : SolutionSpace) (horizon : Interval) : ℚ :=
  match solution_space.get_intervals task_id with
  | none => 0
  | some intervals => flexScan task.size_on_axis horizon intervals

/-- Modelled from the spec: the `Schedule` container's query surface (its
implementation file is not in the shown sources; §3: "mapping task-id →
Interval", §4.6: `contains_task`, `get_interval`). -/
abbrev Schedule := List (Id × Interval)

/-- Modelled from the spec: `Schedule::get_interval` "returns the placed
interval or an absent result" (§4.6). -/
def Schedule.get_interval (s : Schedule) (task_id : Id) : Option Interval :=
  List.lookup task_id s

/-- Modelled from the spec: `Schedule::contains_task` (§4.6). -/
def Schedule.contains_task (s : Schedule) (task_id : Id) : Bool :=
  (s.get_interval task_id).isSome

/-- `SchedulingContext` (`src/constraints/hard/dynamic/constraint.rs:24-29`):
read-only views of the current schedule and the static solution space. -/
structure SchedulingContext where
  schedule : Schedule
  solution_space : SolutionSpace

/-- `DynConstraintKind` (`src/constraints/hard/dynamic/kinds.rs:44-66`). -/
inductive DynConstraintKind where
  | Dependence
  | Consecutive
  | Exclusive
  deriving DecidableEq, Repr

/-- `DynConstraintKind::compute_intervals`
(`src/constraints/hard/dynamic/kinds.rs:68-110`); an `IntervalSet` result is
its ordered sequence of intervals, `IntervalSet::from(range) = [range]`,
`IntervalSet::new() = []`. -/
def DynConstraintKind.compute_intervals (k : DynConstraintKind)
    (range : Interval) (ref_task_id : Id) (ctx : SchedulingContext) :
    List Interval :=
  match k with
  | .Dependence =>
      if ctx.schedule.contains_task ref_task_id then [range] else []
  | .Consecutive =>
      match ctx.schedule.get_interval ref_task_id with
      | some ref_interval =>
          let effective_start :=
            if ref_interval.end_ ≤ range.start then range.start
            else ref_interval.end_
          if effective_start < range.end_ then
            [⟨effective_start, range.end_⟩]
          else []
      | none => []
  | .Exclusive =>
      if ctx.schedule.contains_task ref_task_id then [] else [range]

/-- `ScheduleError` (`src/schedule/errors.rs:6-15`). -/
inductive ScheduleError where
  | DuplicateTaskId (id : Id)
  | NaNTime
  | OverlapsExisting (new_id existing_id : Id)
  | TaskNotFound (id : Id)
  deriving DecidableEq, Repr

/-- An axis value as stored by the schedule: an `f64` that may be NaN
(`none`) or an ordinary number (`some q`). -/
abbrev FV := Option ℚ

/-- IEEE `is_nan`. -/
def FV.isNaN : FV → Bool
  | none => true
  | some _ => false

/-- IEEE `<`: any comparison against NaN is false. -/
def FV.lt : FV → FV → Prop
  | some a, some b => a < b
  | _, _ => False

instance : ∀ a b : FV, Decidable (FV.lt a b)
  | some a, some b => inferInstanceAs (Decidable (a < b))
  | some _, none => .isFalse (fun h => h)
  | none, _ => .isFalse (fun h => h)

/-- An interval as held by the schedule: endpoints are raw `f64` values. -/
structure FInterval where
  start : FV
  end_ : FV
  deriving DecidableEq, Repr

/-- Half-open overlap test on schedule intervals, IEEE comparisons. -/
def FInterval.overlaps (a other : FInterval) : Prop :=
  FV.lt a.start other.end_ ∧ FV.lt other.start a.end_

instance (a b : FInterval) : Decidable (a.overlaps b) :=
  inferInstanceAs (Decidable (FV.lt a.start b.end_ ∧ FV.lt b.start a.end_))

instance {ε α : Type} [DecidableEq ε] [DecidableEq α] :
    DecidableEq (Except ε α) := fun
  | .error a, .error b =>
      if h : a = b then isTrue (congrArg Except.error h)
      else isFalse (fun k => h (Except.error.inj k))
  | .error _, .ok _ => isFalse Except.noConfusion
  | .ok _, .error _ => isFalse Except.noConfusion
  | .ok a, .ok b =>
      if h : a = b then isTrue (congrArg Except.ok h)
      else isFalse (fun k => h (Except.ok.inj k))

/-- Modelled from the spec: the mutable `Schedule` container state (its
implementation file is not in the shown sources; §3: "mapping task-id →
Interval; placements never overlap pairwise; task-ids are unique"). -/
abbrev ScheduleF := List (Id × FInterval)

/-- Modelled from the spec: `Schedule::add` (§4.6): "fails if `task_id` is
already present, if either endpoint is not-a-number, or if the interval
overlaps any existing placement (reporting the conflicting existing
task-id)"; on success the one new placement is committed (§7: no partial
mutation on failure). Error values are the `ScheduleError` variants of
`src/schedule/errors.rs`. -/
def ScheduleF.add (s : ScheduleF) (task_id : Id) (interval : FInterval) :
    Except ScheduleError ScheduleF :=
  if (List.lookup task_id s).isSome then
    .error (.DuplicateTaskId task_id)
  else if interval.start.isNaN || interval.end_.isNaN then
    .error .NaNTime
  else
    match s.find? (fun p => decide (p.2.overlaps interval)) with
    | some p => .error (.OverlapsExisting task_id p.1)
    | none => .ok (s ++ [(task_id, interval)])

/-- The two-field record form of an `Interval` used by its serde support
(`src/solution_space/interval.rs:135-139`, struct `Raw { start: f64, end:
f64 }`; NaN never round-trips through serde tests here, so the raw fields
are embedded as `ℚ`). -/
structure RawInterval where
  start : ℚ
  end_ : ℚ
  deriving DecidableEq, Repr

/-- The `serde::Serialize` impl (`src/solution_space/interval.rs:116-127`):
a struct with exactly the two fields `start` and `end` holding the raw
endpoint values. -/
def Interval.serialize (i : Interval) : RawInterval :=
  ⟨i.start, i.end_⟩

/-- The `serde::Deserialize` impl (`src/solution_space/interval.rs:130-147`):
deserializes the two raw fields and feeds them to `Interval::new`, whose
assertion panics (modelled `none`) when `start > end`. -/
def Interval.deserialize (raw : RawInterval) : Option Interval :=
  Interval.new raw.start raw.end_

/-! ## Theorems -/

/-- C7: `overlaps` is symmetric, and adjacent half-open intervals sharing
only the boundary point `a.end == b.start` never overlap. -/
theorem c7_overlaps_symm_adjacent (a b : Interval) :
    (a.overlaps b ↔ b.overlaps a) ∧ (a.end_ = b.start → ¬ a.overlaps b) := by
  constructor
  · unfold Interval.overlaps
    exact and_comm
  · intro hadj ⟨_, h2⟩
    rw [hadj] at h2
    exact lt_irrefl _ h2

/-- Witness for C7 at `a = [0,5)`, `b = [5,10)`. -/
theorem c7_witness :
    ¬ (Interval.mk 0 5).overlaps (Interval.mk 5 10) :=
  (c7_overlaps_symm_adjacent ⟨0, 5⟩ ⟨5, 10⟩).2 rfl

/-- C6: `intersection` is `None` iff the intervals do not overlap, and a
`Some` result has start `max(starts)` and end `min(ends)`. -/
theorem c6_intersection_bounds (a b : Interval) :
    (a.intersection b = none ↔ ¬ a.overlaps b) ∧
    (∀ c, a.intersection b = some c →
      c.start = max a.start b.start ∧ c.end_ = min a.end_ b.end_) := by
  unfold Interval.intersection
  constructor
  · by_cases h : a.overlaps b <;> simp [h]
  · intro c hc
    by_cases h : a.overlaps b <;> simp [h] at hc
    subst hc
    constructor
    · by_cases hs : b.start < a.start
      · rw [if_pos hs]
        exact (max_eq_left hs.le).symm
      · rw [if_neg hs]
        exact (max_eq_right (le_of_not_lt hs)).symm
    · by_cases he : a.end_ < b.end_
      · rw [if_pos he]
        exact (min_eq_left he.le).symm
      · rw [if_neg he]
        exact (min_eq_right (le_of_not_lt he)).symm

/-- Witness for C6 at `a = [0,10)`, `b = [5,20)`. -/
theorem c6_witness :
    (Interval.mk 5 10).start = max (0 : ℚ) 5 ∧
    (Interval.mk 5 10).end_ = min (10 : ℚ) 20 :=
  (c6_intersection_bounds ⟨0, 10⟩ ⟨5, 20⟩).2 ⟨5, 10⟩ (by
    norm_num [Interval.intersection, Interval.overlaps])

/-- C8: serializing an interval yields the two-field record holding its raw
endpoints, and deserializing that record restores the original interval
(round-trip identity on valid intervals, i.e. `start ≤ end`). -/
theorem c8_serde_roundtrip (i : Interval) (h : i.WF) :
    i.serialize.start = i.start ∧ i.serialize.end_ = i.end_ ∧
    Interval.deserialize i.serialize = some i := by
  refine ⟨rfl, rfl, ?_⟩
  have h' : i.start ≤ i.end_ := h
  unfold Interval.deserialize Interval.serialize Interval.new
  rw [if_pos h']

/-- Witness for C8 at the interval `[10,50)`. -/
theorem c8_witness :
    (Interval.mk 10 50).serialize.start = 10 ∧
    (Interval.mk 10 50).serialize.end_ = 50 ∧
    Interval.deserialize (Interval.mk 10 50).serialize = some ⟨10, 50⟩ :=
  c8_serde_roundtrip ⟨10, 50⟩ (by norm_num [Interval.WF])

/-- C10: deserializing a two-field record with `start > end` panics inside
`Interval::new` (modelled: yields no value), so deserialization never
produces an interval with `start > end`. -/
theorem c10_deserialize_never_invalid (raw : RawInterval) :
    (raw.end_ < raw.start → Interval.deserialize raw = none) ∧
    (∀ i, Interval.deserialize raw = some i → i.WF) := by
  unfold Interval.deserialize Interval.new
  constructor
  · intro h
    rw [if_neg (not_le_of_lt h)]
  · intro i hi
    by_cases h : raw.start ≤ raw.end_
    · rw [if_pos h] at hi
      cases hi
      exact h
    · rw [if_neg h] at hi
      cases hi

/-- Witness for C10 at the record `{start := 5, end := 3}`. -/
theorem c10_witness : Interval.deserialize ⟨5, 3⟩ = none :=
  (c10_deserialize_never_invalid ⟨5, 3⟩).1 (by norm_num)

/-- C1: `DynConstraintKind::compute_intervals` — Dependence yields the whole
range exactly when the reference task is placed; Consecutive yields, for a
reference placed at `[a_start, a_end)`, the single interval
`[max(range.start, a_end), range.end)` when that bound is below `range.end`
and nothing otherwise (empty when unplaced); Exclusive yields the whole
range exactly when the reference task is absent. -/
theorem c1_dyn_constraint_kinds (range : Interval) (t : Id)
    (ctx : SchedulingContext) :
    (DynConstraintKind.Dependence.compute_intervals range t ctx =
      if ctx.schedule.contains_task t then [range] else []) ∧
    (DynConstraintKind.Consecutive.compute_intervals range t ctx =
      match ctx.schedule.get_interval t with
      | none => []
      | some a =>
          if max range.start a.end_ < range.end_ then
            [⟨max range.start a.end_, range.end_⟩]
          else []) ∧
    (DynConstraintKind.Exclusive.compute_intervals range t ctx =
      if ctx.schedule.contains_task t then [] else [range]) := by
  refine ⟨rfl, ?_, rfl⟩
  unfold DynConstraintKind.compute_intervals
  cases hget : ctx.schedule.get_interval t with
  | none => rfl
  | some a =>
      have heff : (if a.end_ ≤ range.start then range.start else a.end_) =
          max range.start a.end_ := by
        by_cases h : a.end_ ≤ range.start
        · rw [if_pos h, max_eq_left h]
        · rw [if_neg h, max_eq_right (le_of_not_le h)]
      simp only [heff]

/-- C5: `Schedule::add` errors — `DuplicateTaskId` exactly when the id is
already present; `NaNTime` exactly when the id is fresh but an endpoint is
NaN; any `OverlapsExisting` error carries the new id and the id of an
existing placement that really overlaps the new interval; when no error
condition holds the call succeeds; any success commits exactly the one new
placement; a success is only possible when no error condition held (in
particular an overlapping interval is never committed); and whenever the
new interval overlaps an existing placement (id fresh, endpoints non-NaN)
the call fails with `OverlapsExisting` naming the new id and the id of an
overlapping placement. The functional model returns either the error or the
new state, so an error leaves the schedule it was called on untouched — no
partial mutation. -/
theorem c5_schedule_add (s : ScheduleF) (task_id : Id) (iv : FInterval) :
    (s.add task_id iv = .error (.DuplicateTaskId task_id) ↔
      (List.lookup task_id s).isSome = true) ∧
    (s.add task_id iv = .error .NaNTime ↔
      ((List.lookup task_id s).isSome = false ∧
        (iv.start.isNaN = true ∨ iv.end_.isNaN = true))) ∧
    (∀ n e, s.add task_id iv = .error (.OverlapsExisting n e) →
      n = task_id ∧ ∃ p ∈ s, p.1 = e ∧ p.2.overlaps iv) ∧
    ((List.lookup task_id s).isSome = false → iv.start.isNaN = false →
      iv.end_.isNaN = false → (∀ p ∈ s, ¬ p.2.overlaps iv) →
      s.add task_id iv = .ok (s ++ [(task_id, iv)])) ∧
    (∀ s', s.add task_id iv = .ok s' → s' = s ++ [(task_id, iv)]) ∧
    (∀ s', s.add task_id iv = .ok s' →
      (List.lookup task_id s).isSome = false ∧ iv.start.isNaN = false ∧
      iv.end_.isNaN = false ∧ ∀ p ∈ s, ¬ p.2.overlaps iv) ∧
    ((List.lookup task_id s).isSome = false → iv.start.isNaN = false →
      iv.end_.isNaN = false → (∃ p ∈ s, p.2.overlaps iv) →
      ∃ e, s.add task_id iv = .error (.OverlapsExisting task_id e) ∧
        ∃ q ∈ s, q.1 = e ∧ q.2.overlaps iv) := by
  unfold ScheduleF.add
  by_cases hdup : (List.lookup task_id s).isSome = true
  · rw [if_pos hdup]
    refine ⟨by simp [hdup], by simp [hdup], ?_, ?_, ?_, ?_, ?_⟩
    · intro n e h
      exact absurd h (by simp)
    · intro h1 _ _ _
      rw [hdup] at h1
      cases h1
    · intro s' h
      exact absurd h (by simp)
    · intro s' h
      exact absurd h (by simp)
    · intro h1 _ _ _
      rw [hdup] at h1
      cases h1
  · rw [if_neg hdup]
    rw [Bool.not_eq_true] at hdup
    by_cases hnan : (iv.start.isNaN || iv.end_.isNaN) = true
    · rw [if_pos hnan]
      rw [Bool.or_eq_true] at hnan
      refine ⟨by simp [hdup], by simp [hdup, hnan], ?_, ?_, ?_, ?_, ?_⟩
      · intro n e h
        exact absurd h (by simp)
      · intro _ h2 h3 _
        rw [h2, h3] at hnan
        simp at hnan
      · intro s' h
        exact absurd h (by simp)
      · intro s' h
        exact absurd h (by simp)
      · intro _ h2 h3 _
        rw [h2, h3] at hnan
        simp at hnan
    · rw [if_neg hnan]
      rw [Bool.or_eq_true] at hnan
      push_neg at hnan
      simp only [Bool.not_eq_true] at hnan
      cases hfind : s.find? (fun p => decide (p.2.overlaps iv)) with
      | some p =>
          refine ⟨by simp [hdup], by simp [hdup, hnan], ?_, ?_, ?_, ?_, ?_⟩
          · intro n e h
            have h' := (Except.error.inj h)
            cases h'
            have hp := List.find?_some hfind
            rw [decide_eq_true_eq] at hp
            exact ⟨rfl, p, List.mem_of_find?_eq_some hfind, rfl, hp⟩
          · intro _ _ _ hno
            have hp := List.find?_some hfind
            rw [decide_eq_true_eq] at hp
            exact absurd hp (hno p (List.mem_of_find?_eq_some hfind))
          · intro s' h
            exact absurd h (by simp)
          · intro s' h
            exact absurd h (by simp)
          · intro _ _ _ _
            have hp := List.find?_some hfind
            rw [decide_eq_true_eq] at hp
            exact ⟨p.1, rfl, p, List.mem_of_find?_eq_some hfind, rfl, hp⟩
      | none =>
          refine ⟨by simp [hdup], by simp [hdup, hnan], ?_, ?_, ?_, ?_, ?_⟩
          · intro n e h
            exact absurd h (by simp)
          · intro _ _ _ _
            rfl
          · intro s' h
            exact (Except.ok.inj h).symm
          · intro s' _
            refine ⟨hdup, hnan.1, hnan.2, ?_⟩
            intro p hp hov
            have hnp := List.find?_eq_none.mp hfind p hp
            rw [decide_eq_true_eq] at hnp
            exact hnp hov
          · rintro _ _ _ ⟨p, hp, hov⟩
            have hnp := List.find?_eq_none.mp hfind p hp
            rw [decide_eq_true_eq] at hnp
            exact absurd hov hnp

/-- Witness for C5: adding a non-overlapping placement to a one-task
schedule succeeds and commits exactly that placement, while an overlapping
placement (`[20,50)` against the existing `[0,30)`) fails with the overlap
error naming both task ids. -/
theorem c5_witness :
    ScheduleF.add [("a", ⟨some 0, some 30⟩)] "b" ⟨some 40, some 50⟩ =
      .ok [("a", ⟨some 0, some 30⟩), ("b", ⟨some 40, some 50⟩)] ∧
    ScheduleF.add [("a", ⟨some 0, some 30⟩)] "b" ⟨some 20, some 50⟩ =
      .error (.OverlapsExisting "b" "a") := by
  constructor
  · exact (c5_schedule_add [("a", ⟨some 0, some 30⟩)] "b"
      ⟨some 40, some 50⟩).2.2.2.1 (by decide) (by decide) (by decide)
      (by decide)
  · obtain ⟨e, he, q, hq, hqe, -⟩ :=
      (c5_schedule_add [("a", ⟨some 0, some 30⟩)] "b"
          ⟨some 20, some 50⟩).2.2.2.2.2.2
        (by decide) (by decide) (by decide)
        ⟨("a", ⟨some 0, some 30⟩), by decide, by decide⟩
    rw [List.mem_singleton] at hq
    subst hq
    cases hqe
    exact he

/-- Spec-worded earliest-start scan (for C2): "scans the task's stored
windows in ascending order; skips any window ending at or before the horizon
start; stops once a window starts at or after the horizon end; for each
remaining window, intersects with the horizon and, if the intersection's
duration ≥ task size, returns the intersection's start"; here "the
intersection with the horizon" is spelled out as
`[max(starts), min(ends))`. -/
def estScanSpec (task_size : ℚ) (horizon : Interval) :
    List Interval → Option ℚ
  | [] => none
  | w :: ws =>
    if w.end_ ≤ horizon.start then estScanSpec task_size horizon ws
    else if horizon.end_ ≤ w.start then none
    else
      let inter : Interval := ⟨max w.start horizon.start,
                               min w.end_ horizon.end_⟩
      if task_size ≤ inter.duration then some inter.start
      else estScanSpec task_size horizon ws

/-- Spec-worded `compute_est` (for C2): absent result when the task has no
SolutionSpace entry, otherwise the ascending scan. -/
def compute_est_spec (task : Task) (task_id : Id)
    (solution_space : SolutionSpace) (horizon : Interval) : Option ℚ :=
  (solution_space.get_intervals task_id).bind
    (estScanSpec task.size_on_axis horizon)

/-- Spec-worded deadline scan (for C3): the symmetric scan in descending
order; skips windows starting at or after the horizon end; stops once a
window ends at or before the horizon start; for the first qualifying window
returns `intersection.end − task_size`. -/
def deadlineScanSpec (task_size : ℚ) (horizon : Interval) :
    List Interval → Option ℚ
  | [] => none
  | w :: ws =>
    if horizon.end_ ≤ w.start then deadlineScanSpec task_size horizon ws
    else if w.end_ ≤ horizon.start then none
    else
      let inter : Interval := ⟨max w.start horizon.start,
                               min w.end_ horizon.end_⟩
      if task_size ≤ inter.duration then some (inter.end_ - task_size)
      else deadlineScanSpec task_size horizon ws

/-- Spec-worded `compute_deadline` (for C3). -/
def compute_deadline_spec (task : Task) (task_id : Id)
    (solution_space : SolutionSpace) (horizon : Interval) : Option ℚ :=
  (solution_space.get_intervals task_id).bind
    (fun intervals =>
      deadlineScanSpec task.size_on_axis horizon intervals.reverse)

/-- In the non-skipped region of any of the three scans, the two skip tests
having failed means the window overlaps the horizon, so `intersection` is
exactly the clipped interval. -/
theorem intersection_of_not_skipped (w horizon : Interval)
    (h1 : ¬ w.end_ ≤ horizon.start) (h2 : ¬ horizon.end_ ≤ w.start) :
    w.intersection horizon =
      some ⟨max w.start horizon.start, min w.end_ horizon.end_⟩ := by
  have hov : w.overlaps horizon := ⟨lt_of_not_le h2, lt_of_not_le h1⟩
  have hstart : (if horizon.start < w.start then w.start else horizon.start) =
      max w.start horizon.start := by
    by_cases hs : horizon.start < w.start
    · rw [if_pos hs, max_eq_left hs.le]
    · rw [if_neg hs, max_eq_right (le_of_not_lt hs)]
  have hend : (if w.end_ < horizon.end_ then w.end_ else horizon.end_) =
      min w.end_ horizon.end_ := by
    by_cases he : w.end_ < horizon.end_
    · rw [if_pos he, min_eq_left he.le]
    · rw [if_neg he, min_eq_right (le_of_not_lt he)]
  unfold Interval.intersection
  rw [if_pos hov, hstart, hend]

/-- The ascending code scan equals the spec-worded ascending scan. -/
theorem estScan_eq_spec (task_size : ℚ) (horizon : Interval)
    (l : List Interval) :
    estScan task_size horizon l = estScanSpec task_size horizon l := by
  induction l with
  | nil => rfl
  | cons w ws ih =>
      rw [estScan, estScanSpec]
      by_cases h1 : w.end_ ≤ horizon.start
      · rw [if_pos h1, if_pos h1, ih]
      · rw [if_neg h1, if_neg h1]
        by_cases h2 : horizon.end_ ≤ w.start
        · rw [if_pos h2, if_pos h2]
        · rw [if_neg h2, if_neg h2,
            intersection_of_not_skipped w horizon h1 h2]
          by_cases h3 : task_size ≤
              (Interval.mk (max w.start horizon.start)
                (min w.end_ horizon.end_)).duration
          · rw [if_pos h3]
            exact if_pos h3
          · rw [if_neg h3, ih]
            exact if_neg h3

/-- C2: `compute_est` behaves exactly as the spec describes it: `None`
without a solution-space entry, otherwise the ascending skip/stop scan that
returns the start of the horizon intersection of the first window whose
intersection fits the task, and `None` when no window qualifies. -/
theorem c2_compute_est_follows_spec (task : Task) (task_id : Id)
    (solution_space : SolutionSpace) (horizon : Interval) :
    compute_est task task_id solution_space horizon =
      compute_est_spec task task_id solution_space horizon := by
  unfold compute_est compute_est_spec
  rw [funext (estScan_eq_spec task.size_on_axis horizon)]

/-- The descending code scan equals the spec-worded descending scan. -/
theorem deadlineScan_eq_spec (task_size : ℚ) (horizon : Interval)
    (l : List Interval) :
    deadlineScan task_size horizon l = deadlineScanSpec task_size horizon l := by
  induction l with
  | nil => rfl
  | cons w ws ih =>
      rw [deadlineScan, deadlineScanSpec]
      by_cases h2 : horizon.end_ ≤ w.start
      · rw [if_pos h2, if_pos h2, ih]
      · rw [if_neg h2, if_neg h2]
        by_cases h1 : w.end_ ≤ horizon.start
        · rw [if_pos h1, if_pos h1]
        · rw [if_neg h1, if_neg h1,
            intersection_of_not_skipped w horizon h1 h2]
          by_cases h3 : task_size ≤
              (Interval.mk (max w.start horizon.start)
                (min w.end_ horizon.end_)).duration
          · rw [if_pos h3]
            exact if_pos h3
          · rw [if_neg h3, ih]
            exact if_neg h3

/-- C3: `compute_deadline` behaves exactly as the spec describes it: the
symmetric descending scan returning `intersection.end − task_size` for the
first window (from the right) whose horizon intersection fits the task. -/
theorem c3_compute_deadline_follows_spec (task : Task) (task_id : Id)
    (solution_space : SolutionSpace) (horizon : Interval) :
    compute_deadline task task_id solution_space horizon =
      compute_deadline_spec task task_id solution_space horizon := by
  unfold compute_deadline compute_deadline_spec
  simp only [deadlineScan_eq_spec]

/-- A window qualifies in any of the three metric scans when its
intersection with the horizon exists and its duration is at least the task
size. -/
def fits (task_size : ℚ) (horizon w : Interval) : Prop :=
  ∃ c, w.intersection horizon = some c ∧ task_size ≤ c.duration

instance (task_size : ℚ) (horizon w : Interval) :
    Decidable (fits task_size horizon w) :=
  match hi : w.intersection horizon with
  | some c =>
      decidable_of_iff (task_size ≤ c.duration)
        ⟨fun h => ⟨c, hi, h⟩,
         fun ⟨c', hc', h'⟩ => by rw [hi] at hc'; cases hc'; exact h'⟩
  | none => isFalse (fun ⟨c', hc', _⟩ => by rw [hi] at hc'; cases hc')

/-- `a` lies entirely at or before `b` (the per-pair consequence of
`is_canonical`). -/
def precedes (a b : Interval) : Prop := a.end_ ≤ b.start

/-- Every `some` result of `intersection` records an overlap and carries the
clipped bounds. -/
theorem intersection_some_eq (a b c : Interval)
    (h : a.intersection b = some c) :
    a.overlaps b ∧ c.start = max a.start b.start ∧
      c.end_ = min a.end_ b.end_ := by
  unfold Interval.intersection at h
  by_cases hov : a.overlaps b
  · rw [if_pos hov] at h
    cases h
    refine ⟨hov, ?_, ?_⟩
    · by_cases hs : b.start < a.start
      · rw [if_pos hs, max_eq_left hs.le]
      · rw [if_neg hs, max_eq_right (le_of_not_lt hs)]
    · by_cases he : a.end_ < b.end_
      · rw [if_pos he, min_eq_left he.le]
      · rw [if_neg he, min_eq_right (le_of_not_lt he)]
  · rw [if_neg hov] at h
    cases h

/-- A window ending at or before the horizon start never qualifies. -/
theorem not_fits_of_end_before (task_size : ℚ) (horizon w : Interval)
    (h : w.end_ ≤ horizon.start) : ¬ fits task_size horizon w := by
  rintro ⟨c, hc, -⟩
  exact absurd ((intersection_some_eq w horizon c hc).1.2) (not_lt_of_le h)

/-- A window starting at or after the horizon end never qualifies. -/
theorem not_fits_of_start_after (task_size : ℚ) (horizon w : Interval)
    (h : horizon.end_ ≤ w.start) : ¬ fits task_size horizon w := by
  rintro ⟨c, hc, -⟩
  exact absurd ((intersection_some_eq w horizon c hc).1.1) (not_lt_of_le h)

/-- For well-formed intervals, consecutive `precedes` links extend to all
pairs in order. -/
theorem chain_precedes_pairwise :
    ∀ (l : List Interval), (∀ w ∈ l, w.WF) → l.Chain' precedes →
      l.Pairwise precedes := by
  intro l
  induction l with
  | nil =>
      intro _ _
      exact List.Pairwise.nil
  | cons w l ih =>
      intro hwf hc
      rw [List.chain'_cons'] at hc
      have hp := ih (fun x hx => hwf x (List.mem_cons_of_mem _ hx)) hc.2
      refine List.pairwise_cons.mpr ⟨?_, hp⟩
      intro b hb
      cases l with
      | nil => cases hb
      | cons x l' =>
          have hwx : precedes w x := hc.1 x rfl
          rcases List.mem_cons.mp hb with rfl | hb'
          · exact hwx
          · have hxb : precedes x b := (List.pairwise_cons.mp hp).1 b hb'
            calc w.end_ ≤ x.start := hwx
              _ ≤ x.end_ := hwf x (List.mem_cons_of_mem _ (List.mem_cons_self _ _))
              _ ≤ b.start := hxb

/-- `is_canonical` yields the consecutive `precedes` links. -/
theorem is_canonical_chain (l : List Interval) (hc : is_canonical l) :
    l.Chain' precedes :=
  List.Chain'.imp (fun _ _ h => h.2) hc

/-- Under the canonical-order hypotheses, the ascending code scan returns the
clipped start of the first qualifying window (`find?` from the left). -/
theorem estScan_eq_find (task_size : ℚ) (horizon : Interval) :
    ∀ (l : List Interval), (∀ w ∈ l, w.WF) → l.Pairwise precedes →
    estScan task_size horizon l =
      (l.find? (fun w => decide (fits task_size horizon w))).map
        (fun w => max w.start horizon.start) := by
  intro l
  induction l with
  | nil =>
      intro _ _
      rfl
  | cons w ws ih =>
      intro hwf hp
      have hwfw : w.WF := hwf w (List.mem_cons_self _ _)
      have hwfs : ∀ x ∈ ws, x.WF :=
        fun x hx => hwf x (List.mem_cons_of_mem _ hx)
      have hpw := (List.pairwise_cons.mp hp).1
      have hps := (List.pairwise_cons.mp hp).2
      rw [estScan]
      by_cases h1 : w.end_ ≤ horizon.start
      · rw [if_pos h1, List.find?_cons_of_neg _ (by
          simp only [decide_eq_true_eq]
          exact not_fits_of_end_before task_size horizon w h1)]
        exact ih hwfs hps
      · rw [if_neg h1]
        by_cases h2 : horizon.end_ ≤ w.start
        · rw [if_pos h2]
          have hnone : List.find? (fun w => decide (fits task_size horizon w))
              (w :: ws) = none := by
            rw [List.find?_eq_none]
            intro x hx
            simp only [decide_eq_true_eq]
            rcases List.mem_cons.mp hx with rfl | hx'
            · exact not_fits_of_start_after task_size horizon x h2
            · exact not_fits_of_start_after task_size horizon x
                (le_trans h2 (le_trans hwfw (hpw x hx')))
          rw [hnone]
          rfl
        · rw [if_neg h2, intersection_of_not_skipped w horizon h1 h2]
          dsimp only
          by_cases h3 : task_size ≤
              (Interval.mk (max w.start horizon.start)
                (min w.end_ horizon.end_)).duration
          · rw [if_pos h3, List.find?_cons_of_pos _ (by
              simp only [decide_eq_true_eq]
              exact ⟨_, intersection_of_not_skipped w horizon h1 h2, h3⟩)]
            rfl
          · rw [if_neg h3, List.find?_cons_of_neg _ (by
              simp only [decide_eq_true_eq]
              rintro ⟨c, hc, hd⟩
              rw [intersection_of_not_skipped w horizon h1 h2] at hc
              cases hc
              exact h3 hd)]
            exact ih hwfs hps

/-- Under the reversed canonical-order hypotheses, the descending code scan
returns `clipped end − task size` of the first qualifying window of its
input (which `compute_deadline` passes reversed). -/
theorem deadlineScan_eq_find (task_size : ℚ) (horizon : Interval) :
    ∀ (l : List Interval), (∀ w ∈ l, w.WF) →
    l.Pairwise (fun a b => precedes b a) →
    deadlineScan task_size horizon l =
      (l.find? (fun w => decide (fits task_size horizon w))).map
        (fun w => min w.end_ horizon.end_ - task_size) := by
  intro l
  induction l with
  | nil =>
      intro _ _
      rfl
  | cons w ws ih =>
      intro hwf hp
      have hwfw : w.WF := hwf w (List.mem_cons_self _ _)
      have hwfs : ∀ x ∈ ws, x.WF :=
        fun x hx => hwf x (List.mem_cons_of_mem _ hx)
      have hpw := (List.pairwise_cons.mp hp).1
      have hps := (List.pairwise_cons.mp hp).2
      rw [deadlineScan]
      by_cases h2 : horizon.end_ ≤ w.start
      · rw [if_pos h2, List.find?_cons_of_neg _ (by
          simp only [decide_eq_true_eq]
          exact not_fits_of_start_after task_size horizon w h2)]
        exact ih hwfs hps
      · rw [if_neg h2]
        by_cases h1 : w.end_ ≤ horizon.start
        · rw [if_pos h1]
          have hnone : List.find? (fun w => decide (fits task_size horizon w))
              (w :: ws) = none := by
            rw [List.find?_eq_none]
            intro x hx
            simp only [decide_eq_true_eq]
            rcases List.mem_cons.mp hx with rfl | hx'
            · exact not_fits_of_end_before task_size horizon x h1
            · exact not_fits_of_end_before task_size horizon x
                (le_trans (hpw x hx') (le_trans hwfw h1))
          rw [hnone]
          rfl
        · rw [if_neg h1, intersection_of_not_skipped w horizon h1 h2]
          dsimp only
          by_cases h3 : task_size ≤
              (Interval.mk (max w.start horizon.start)
                (min w.end_ horizon.end_)).duration
          · rw [if_pos h3, List.find?_cons_of_pos _ (by
              simp only [decide_eq_true_eq]
              exact ⟨_, intersection_of_not_skipped w horizon h1 h2, h3⟩)]
            rfl
          · rw [if_neg h3, List.find?_cons_of_neg _ (by
              simp only [decide_eq_true_eq]
              rintro ⟨c, hc, hd⟩
              rw [intersection_of_not_skipped w horizon h1 h2] at hc
              cases hc
              exact h3 hd)]
            exact ih hwfs hps

/-- In a well-formed `precedes`-sorted list, the first hit of a search from
the left ends at or before the first hit of a search from the right. -/
theorem find?_first_end_le_last (p : Interval → Bool) :
    ∀ (l : List Interval), (∀ w ∈ l, w.WF) → l.Pairwise precedes →
    ∀ a b, l.find? p = some a → l.reverse.find? p = some b →
    a.end_ ≤ b.end_ := by
  intro l
  induction l with
  | nil =>
      intro _ _ a b ha _
      cases ha
  | cons w l ih =>
      intro hwf hp a b ha hb
      have hwfl : ∀ x ∈ l, x.WF :=
        fun x hx => hwf x (List.mem_cons_of_mem _ hx)
      have hpw := (List.pairwise_cons.mp hp).1
      have hpl := (List.pairwise_cons.mp hp).2
      rw [List.reverse_cons, List.find?_append] at hb
      by_cases hw : p w = true
      · rw [List.find?_cons_of_pos _ hw] at ha
        cases ha
        cases hfind : l.reverse.find? p with
        | some b' =>
            rw [hfind] at hb
            cases hb
            have hbl : b ∈ l :=
              List.mem_reverse.mp (List.mem_of_find?_eq_some hfind)
            exact le_trans (hpw b hbl) (hwf b (List.mem_cons_of_mem _ hbl))
        | none =>
            rw [hfind, Option.none_or, List.find?_cons_of_pos _ hw] at hb
            cases hb
            exact le_refl _
      · rw [List.find?_cons_of_neg _ hw] at ha
        cases hfind : l.reverse.find? p with
        | some b' =>
            rw [hfind] at hb
            cases hb
            exact ih hwfl hpl a b ha hfind
        | none =>
            rw [hfind, Option.none_or, List.find?_cons_of_neg _ hw] at hb
            cases hb

/-- C9: for a positive-size task whose solution-space entry is canonical
(and well-formed as the Rust `Interval` type guarantees), `compute_est` and
`compute_deadline` succeed together, and the earliest start never exceeds
the deadline. -/
theorem c9_est_le_deadline (task : Task) (task_id : Id)
    (ss : SolutionSpace) (horizon : Interval)
    (hpos : 0 < task.size_on_axis)
    (hws : ∀ ws, ss.get_intervals task_id = some ws →
      is_canonical ws ∧ ∀ w ∈ ws, w.WF) :
    ((compute_est task task_id ss horizon).isSome ↔
      (compute_deadline task task_id ss horizon).isSome) ∧
    (∀ e d, compute_est task task_id ss horizon = some e →
      compute_deadline task task_id ss horizon = some d → e ≤ d) := by
  unfold compute_est compute_deadline
  cases hget : ss.get_intervals task_id with
  | none =>
      rw [Option.none_bind, Option.none_bind]
      exact ⟨Iff.rfl, by intro e d he _; cases he⟩
  | some ws =>
      obtain ⟨hcanon, hwf⟩ := hws ws hget
      have hp : ws.Pairwise precedes :=
        chain_precedes_pairwise ws hwf (is_canonical_chain ws hcanon)
      have hwfr : ∀ w ∈ ws.reverse, w.WF :=
        fun w hw => hwf w (List.mem_reverse.mp hw)
      have hpr : ws.reverse.Pairwise (fun a b => precedes b a) :=
        List.pairwise_reverse.mpr hp
      rw [Option.some_bind, Option.some_bind,
        estScan_eq_find task.size_on_axis horizon ws hwf hp,
        deadlineScan_eq_find task.size_on_axis horizon ws.reverse hwfr hpr]
      constructor
      · rw [Option.isSome_map', Option.isSome_map', List.find?_isSome,
          List.find?_isSome]
        constructor
        · rintro ⟨x, hx, hpx⟩
          exact ⟨x, List.mem_reverse.mpr hx, hpx⟩
        · rintro ⟨x, hx, hpx⟩
          exact ⟨x, List.mem_reverse.mp hx, hpx⟩
      · intro e d he hd
        rcases Option.map_eq_some'.mp he with ⟨a, hfa, hea⟩
        rcases Option.map_eq_some'.mp hd with ⟨b, hfb, hdb⟩
        have hab : a.end_ ≤ b.end_ :=
          find?_first_end_le_last _ ws hwf hp a b hfa hfb
        have hfit : fits task.size_on_axis horizon a := by
          have h := List.find?_some hfa
          rwa [decide_eq_true_eq] at h
        obtain ⟨c, hc, hdur⟩ := hfit
        obtain ⟨hov, hcs, hce⟩ := intersection_some_eq a horizon c hc
        subst hea hdb
        rw [← hcs]
        have h1 : task.size_on_axis ≤ c.end_ - c.start := hdur
        have h2 : c.end_ ≤ min b.end_ horizon.end_ := by
          rw [hce]
          exact min_le_min hab (le_refl _)
        linarith

/-- Witness for C9: size-10 task, single window `[0,100)`, horizon
`[0,100)` — EST and deadline exist together. -/
theorem c9_witness :
    (compute_est ⟨10⟩ "t" [("t", [⟨0, 100⟩])] ⟨0, 100⟩).isSome ↔
      (compute_deadline ⟨10⟩ "t" [("t", [⟨0, 100⟩])] ⟨0, 100⟩).isSome :=
  (c9_est_le_deadline ⟨10⟩ "t" [("t", [⟨0, 100⟩])] ⟨0, 100⟩ (by norm_num)
    (by
      intro ws h
      simp only [SolutionSpace.get_intervals, List.lookup, beq_self_eq_true,
        Option.some.injEq] at h
      subst h
      exact ⟨by simp [is_canonical], by decide⟩)).1

/-- With a positive task size no scan step subtracts flexibility. -/
theorem flexScan_nonneg (task_size : ℚ) (horizon : Interval)
    (hpos : 0 < task_size) :
    ∀ l, 0 ≤ flexScan task_size horizon l := by
  intro l
  induction l with
  | nil => exact le_refl 0
  | cons w ws ih =>
      rw [flexScan]
      by_cases h1 : w.end_ ≤ horizon.start
      · rw [if_pos h1]
        exact ih
      · rw [if_neg h1]
        by_cases h2 : horizon.end_ ≤ w.start
        · rw [if_pos h2]
        · rw [if_neg h2]
          cases hi : w.intersection horizon with
          | some c =>
              dsimp only
              refine add_nonneg ?_ ih
              by_cases h3 : task_size ≤ c.duration
              · rw [if_pos h3]
                exact div_nonneg (le_trans hpos.le h3) hpos.le
              · rw [if_neg h3]
          | none => exact ih

/-- When no window qualifies the flexibility sum is zero. -/
theorem flexScan_eq_zero (task_size : ℚ) (horizon : Interval) :
    ∀ l, (∀ w ∈ l, ¬ fits task_size horizon w) →
    flexScan task_size horizon l = 0 := by
  intro l
  induction l with
  | nil =>
      intro _
      rfl
  | cons w ws ih =>
      intro hall
      have hw := hall w (List.mem_cons_self _ _)
      have htail : ∀ x ∈ ws, ¬ fits task_size horizon x :=
        fun x hx => hall x (List.mem_cons_of_mem _ hx)
      rw [flexScan]
      by_cases h1 : w.end_ ≤ horizon.start
      · rw [if_pos h1]
        exact ih htail
      · rw [if_neg h1]
        by_cases h2 : horizon.end_ ≤ w.start
        · rw [if_pos h2]
        · rw [if_neg h2]
          cases hi : w.intersection horizon with
          | some c =>
              dsimp only
              have h3 : ¬ task_size ≤ c.duration :=
                fun h3 => hw ⟨c, hi, h3⟩
              rw [if_neg h3, ih htail, zero_add]
          | none => exact ih htail

/-- With a positive task size, a canonical well-formed window list holding
any qualifying window pushes the flexibility sum to at least 1. -/
theorem flexScan_ge_one (task_size : ℚ) (horizon : Interval)
    (hpos : 0 < task_size) :
    ∀ l, (∀ w ∈ l, w.WF) → l.Pairwise precedes →
    (∃ w ∈ l, fits task_size horizon w) →
    1 ≤ flexScan task_size horizon l := by
  intro l
  induction l with
  | nil =>
      rintro _ _ ⟨w, hw, -⟩
      cases hw
  | cons w ws ih =>
      rintro hwf hp ⟨x, hx, hfx⟩
      have hwfw : w.WF := hwf w (List.mem_cons_self _ _)
      have hwfs : ∀ y ∈ ws, y.WF :=
        fun y hy => hwf y (List.mem_cons_of_mem _ hy)
      have hpw := (List.pairwise_cons.mp hp).1
      have hps := (List.pairwise_cons.mp hp).2
      rw [flexScan]
      by_cases h1 : w.end_ ≤ horizon.start
      · rw [if_pos h1]
        rcases List.mem_cons.mp hx with rfl | hx'
        · exact absurd hfx (not_fits_of_end_before task_size horizon x h1)
        · exact ih hwfs hps ⟨x, hx', hfx⟩
      · rw [if_neg h1]
        by_cases h2 : horizon.end_ ≤ w.start
        · exfalso
          rcases List.mem_cons.mp hx with rfl | hx'
          · exact absurd hfx (not_fits_of_start_after task_size horizon x h2)
          · exact absurd hfx (not_fits_of_start_after task_size horizon x
              (le_trans h2 (le_trans hwfw (hpw x hx'))))
        · rw [if_neg h2]
          cases hi : w.intersection horizon with
          | some c =>
              dsimp only
              by_cases h3 : task_size ≤ c.duration
              · rw [if_pos h3]
                have hterm : 1 ≤ c.duration / task_size :=
                  (one_le_div hpos).mpr h3
                have hrest := flexScan_nonneg task_size horizon hpos ws
                linarith
              · rw [if_neg h3, zero_add]
                rcases List.mem_cons.mp hx with rfl | hx'
                · obtain ⟨c', hc', hd'⟩ := hfx
                  rw [hi] at hc'
                  cases hc'
                  exact absurd hd' h3
                · exact ih hwfs hps ⟨x, hx', hfx⟩
          | none =>
              rcases List.mem_cons.mp hx with rfl | hx'
              · obtain ⟨c', hc', -⟩ := hfx
                rw [hi] at hc'
                cases hc'
              · exact ih hwfs hps ⟨x, hx', hfx⟩

/-- C4 (amended: task size strictly positive): `compute_flexibility` is
below 1 exactly when no stored window's horizon intersection can hold the
task, and it is 0 when the task has no solution-space entry. -/
theorem c4_flexibility_lt_one (task : Task) (task_id : Id)
    (ss : SolutionSpace) (horizon : Interval)
    (hpos : 0 < task.size_on_axis)
    (hws : ∀ ws, ss.get_intervals task_id = some ws →
      is_canonical ws ∧ ∀ w ∈ ws, w.WF) :
    (compute_flexibility task task_id ss horizon < 1 ↔
      ∀ ws, ss.get_intervals task_id = some ws →
        ∀ w ∈ ws, ¬ fits task.size_on_axis horizon w) ∧
    (ss.get_intervals task_id = none →
      compute_flexibility task task_id ss horizon = 0) := by
  unfold compute_flexibility
  cases hget : ss.get_intervals task_id with
  | none =>
      refine ⟨⟨fun _ ws hws' => ?_, fun _ => ?_⟩, fun _ => rfl⟩
      · cases hws'
      · norm_num
  | some ws =>
      obtain ⟨hcanon, hwf⟩ := hws ws hget
      have hp : ws.Pairwise precedes :=
        chain_precedes_pairwise ws hwf (is_canonical_chain ws hcanon)
      dsimp only
      refine ⟨⟨?_, ?_⟩, ?_⟩
      · intro hlt ws' hws' w hw hfit
        cases hws'
        exact absurd hlt (not_lt_of_le
          (flexScan_ge_one task.size_on_axis horizon hpos ws hwf hp
            ⟨w, hw, hfit⟩))
      · intro hall
        rw [flexScan_eq_zero task.size_on_axis horizon ws (hall ws rfl)]
        norm_num
      · intro h
        cases h

/-- Counterexample for C4 as stated (no positivity assumption on the task
size): a size `-10` task with the canonical well-formed window `[0,20)` and
horizon `[0,20)` has flexibility `-2 < 1` even though the window's horizon
intersection qualifies (its duration `20` is ≥ the size), so "flexibility
< 1 iff the task fits in no horizon-intersected window" fails. -/
theorem c4_counterexample :
    compute_flexibility ⟨-10⟩ "t" [("t", [⟨0, 20⟩])] ⟨0, 20⟩ < 1 ∧
    is_canonical [(⟨0, 20⟩ : Interval)] ∧ (Interval.mk 0 20).WF ∧
    fits (-10) ⟨0, 20⟩ ⟨0, 20⟩ := by
  refine ⟨?_, by simp [is_canonical], by decide, ?_⟩
  · norm_num [compute_flexibility, SolutionSpace.get_intervals, List.lookup,
      flexScan, Interval.intersection, Interval.overlaps, Interval.duration]
  · refine ⟨⟨0, 20⟩, ?_, ?_⟩
    · norm_num [Interval.intersection, Interval.overlaps]
    · norm_num [Interval.duration]

/-- Witness for C4 (amended): a size-10 task whose only window `[0,5)` is
too small has flexibility below 1. -/
theorem c4_witness :
    compute_flexibility ⟨10⟩ "t" [("t", [⟨0, 5⟩])] ⟨0, 20⟩ < 1 :=
  (c4_flexibility_lt_one ⟨10⟩ "t" [("t", [⟨0, 5⟩])] ⟨0, 20⟩ (by norm_num)
    (by
      intro ws h
      simp only [SolutionSpace.get_intervals, List.lookup, beq_self_eq_true,
        Option.some.injEq] at h
      subst h
      exact ⟨by simp [is_canonical], by decide⟩)).1.mpr
    (by
      intro ws h
      simp only [SolutionSpace.get_intervals, List.lookup, beq_self_eq_true,
        Option.some.injEq] at h
      subst h
      intro w hw
      rw [List.mem_singleton] at hw
      subst hw
      rintro ⟨c, hc, hd⟩
      have h5 : (Interval.mk 0 5).intersection ⟨0, 20⟩ = some ⟨0, 5⟩ := by
        norm_num [Interval.intersection, Interval.overlaps]
      rw [h5] at hc
      cases hc
      norm_num [Interval.duration] at hd)

end VRolai
